import Mathlib

/-!
Verification of the fretboard-viewer core: pitch-class model, scale/chord
set builder, fretboard grid generator, and the lookahead scheduler.
Definitions are shallow embeddings of the TypeScript sources
(`src/core/music.ts` and the scheduler / chord logic in `App.tsx`).
-/

namespace FretViewer

/-! ## Pitch-class model (`src/core/music.ts`) -/

instance {ε α : Type} [DecidableEq ε] [DecidableEq α] : DecidableEq (Except ε α) := fun a b =>
  match a, b with
  | .ok x, .ok y => if h : x = y then .isTrue (by rw [h]) else .isFalse (by simp [h])
  | .error x, .error y => if h : x = y then .isTrue (by rw [h]) else .isFalse (by simp [h])
  | .ok _, .error _ => .isFalse (by simp)
  | .error _, .ok _ => .isFalse (by simp)

/-- The fixed name-to-value table used by `pcOf` (keys are upper-cased). -/
def noteMap : List (String × Nat) :=
  [("C", 0), ("C#", 1), ("DB", 1), ("D", 2), ("D#", 3), ("EB", 3), ("E", 4), ("FB", 4),
   ("E#", 5), ("F", 5), ("F#", 6), ("GB", 6), ("G", 7), ("G#", 8), ("AB", 8), ("A", 9),
   ("A#", 10), ("BB", 10), ("B", 11), ("CB", 11), ("B#", 0)]

/-- Association-list lookup, mirroring the JS object-key lookup `map[n]`. -/
def lookupNote : List (String × Nat) → String → Option Nat
  | [], _ => none
  | (k, v) :: rest, n => if n = k then some v else lookupNote rest n

/-- JS `String.prototype.trim`: drop whitespace from both ends. -/
def jsTrim (s : String) : String :=
  String.mk (((s.data.dropWhile Char.isWhitespace).reverse.dropWhile Char.isWhitespace).reverse)

/-- JS `String.prototype.toUpperCase` (ASCII, which is all the app feeds it). -/
def jsToUpper (s : String) : String :=
  String.mk (s.data.map Char.toUpper)

/-- JS `name.replace(/m$/, "")`: remove one trailing lowercase `m`, if any. -/
def stripTrailingM (s : String) : String :=
  match s.data.reverse with
  | 'm' :: rest => String.mk rest.reverse
  | _ => s

/-- `pcOf` from `music.ts`: normalize (trim, strip a trailing lowercase `m`,
upper-case) and look the text up in `noteMap`; throwing `Error("Unknown note: " + name)`
is modelled as `Except.error`. -/
def pcOf (name : String) : Except String Nat :=
  let n := jsToUpper (stripTrailingM (jsTrim name))
  match lookupNote noteMap n with
  | some v => Except.ok (v % 12)
  | none => Except.error ("Unknown note: " ++ name)

/-- `standardTuning` from `music.ts` (lowest-pitched string first). -/
def standardTuning : List String := ["E", "A", "D", "G", "B", "E"]

/-- The fixed 12-entry degree-label table of `degreeLabel` (entries 1, 6 and 8
depend on the `preferSharps` flag). -/
def degreeTable (preferSharps : Bool) : List String :=
  ["R", if preferSharps then "#1" else "b2", "2", "b3", "3", "4",
   if preferSharps then "#4" else "b5", "5",
   if preferSharps then "#5" else "b6", "6", "b7", "7"]

/-- `degreeLabel` from `music.ts`: index the fixed table at `(note - tonic + 12) % 12`. -/
def degreeLabel (tonic note : Fin 12) (preferSharps : Bool) : String :=
  (degreeTable preferSharps).getD ((note.val + 12 - tonic.val) % 12) ""

/-! ## Scale / chord set builder (`App.tsx`) -/

/-- The chord-tone display mode of the UI select. -/
inductive ChordToneMode
  | off
  | triad
  | seventh
  | extended
deriving DecidableEq

/-- The third slot of `buildChordDegrees`: `if (has(4)) deg.add(4) else if (has(3)) deg.add(3)`. -/
def addThird (ints deg : List Nat) : List Nat :=
  if 4 ∈ ints then deg ++ [4] else if 3 ∈ ints then deg ++ [3] else deg

/-- The fifth slot: `if (has(7)) deg.add(7) else if (has(6)) deg.add(6)`. -/
def addFifth (ints deg : List Nat) : List Nat :=
  if 7 ∈ ints then deg ++ [7] else if 6 ∈ ints then deg ++ [6] else deg

/-- The seventh slot: `if (has(10)) deg.add(10) else if (has(11)) deg.add(11)`. -/
def addSeventh (ints deg : List Nat) : List Nat :=
  if 10 ∈ ints then deg ++ [10] else if 11 ∈ ints then deg ++ [11] else deg

/-- The extended slots: `if (has(2)) deg.add(2)` etc. for 2, 5, 9. -/
def addExtended (ints deg : List Nat) : List Nat :=
  let deg := if 2 ∈ ints then deg ++ [2] else deg
  let deg := if 5 ∈ ints then deg ++ [5] else deg
  if 9 ∈ ints then deg ++ [9] else deg

/-- `buildChordDegrees` from `App.tsx`: from the scale intervals (0 = root)
return the relative chord degrees for a display mode.  The JS `Set` (inserted
in order: root, third, fifth, seventh, extensions) is modelled by a list; all
inserted values are pairwise distinct, so list and set membership agree. -/
def buildChordDegrees (intervals : List Nat) (mode : ChordToneMode) : List Nat :=
  if mode = ChordToneMode.off then [] else
  let deg := addFifth intervals (addThird intervals [0])
  if mode = ChordToneMode.triad then deg else
  let deg := addSeventh intervals deg
  if mode = ChordToneMode.seventh then deg else
  addExtended intervals deg

/-- `scaleSetA` in `App.tsx`: the absolute pitch-class set of a scale. -/
def scalePitchClasses (intervals : List Nat) (tonic : Nat) : Finset Nat :=
  (intervals.map (fun i => (i + tonic) % 12)).toFinset

/-- `chordSetA` in `App.tsx`: the mode-dependent chord-tone set, transposed to
absolute pitch classes. -/
def chordToneSet (intervals : List Nat) (tonic : Nat) (mode : ChordToneMode) : Finset Nat :=
  ((buildChordDegrees intervals mode).map (fun d => (d + tonic) % 12)).toFinset

/-- `pcFromNameUnsafe` on the trimmed character list: the regex
`^([A-Ga-g])([#b]?)` resolved by hand.  Returns 0 when the first character is
not a note letter (regex mismatch). -/
def letterBase (c : Char) : Option Nat :=
  match c with
  | 'C' => some 0
  | 'D' => some 2
  | 'E' => some 4
  | 'F' => some 5
  | 'G' => some 7
  | 'A' => some 9
  | 'B' => some 11
  | _ => none

/-- The accidental captured by `([#b]?)`: +1 for `#`, -1 for lowercase `b`,
else 0, read from the character right after the letter. -/
def accOf (rest : List Char) : Int :=
  match rest with
  | c :: _ => if c = '#' then 1 else if c = 'b' then -1 else 0
  | [] => 0

/-- Core of `pcFromNameUnsafe` after `trim`: first char is the letter
(upper-cased for the base lookup), an immediately following `#` or lowercase
`b` is the accidental; `(base + acc + 12) % 12` as in the source. -/
def pcCore (cs : List Char) : Nat :=
  match cs with
  | [] => 0
  | c :: rest =>
    match letterBase c.toUpper with
    | none => 0
    | some base => (((base : Int) + accOf rest + 12) % 12).toNat

/-- `pcFromNameUnsafe` from `App.tsx`: root name to pitch class, degrading to
0 (C) when the leading letter+accidental prefix does not match. -/
def pcFromNameUnsafe (name : String) : Nat := pcCore (jsTrim name).data

/-- The two chord qualities of the progression feature. -/
inductive ChordQuality
  | triad
  | dom7
deriving DecidableEq

/-- `chordDegreesFor` from `App.tsx`: fixed relative-degree template. -/
def chordDegreesFor (q : ChordQuality) : List Nat :=
  match q with
  | .triad => [0, 4, 7]
  | .dom7 => [0, 4, 7, 10]

/-- `currentChordName` in `App.tsx`: the chord name shown for a (1-based) bar,
`progression[(bar - 1 + 12) % 12]` (JS signed arithmetic, hence `Int`). -/
def chordNameAt (progression : List String) (bar : Nat) : String :=
  progression.getD ((((bar : Int) - 1 + 12) % 12).toNat) ""

/-- `chordSetBar` in `App.tsx`: the per-bar chord-tone set, the quality
template transposed by the root parsed from the chord name at `bar`. -/
def barChordTones (progression : List String) (bar : Nat) (q : ChordQuality) : Finset Nat :=
  let root := pcFromNameUnsafe (chordNameAt progression bar) % 12
  ((chordDegreesFor q).map (fun d => (d + root) % 12)).toFinset

/-- The progression presets of `App.tsx`. -/
def PROGRESSIONS : List (String × List String) :=
  [("12-bar Blues (A)", ["A", "D", "A", "A", "D", "D", "A", "A", "E", "D", "E", "A"]),
   ("12-bar Blues (E)", ["E", "A", "E", "E", "A", "A", "E", "E", "B", "A", "B", "E"]),
   ("Jazz Blues (Bb)", ["Bb7", "Eb7", "Bb7", "Bb7", "Eb7", "Edim", "Bb7", "G7", "C7", "F7", "Bb7", "F7"])]

/-! ## Fretboard grid generator (`buildNotes` in `music.ts`) -/

/-- One record of the note grid (`x`/`y` are the cell-center coordinates,
rationals because of the `+ 0.5` offsets). -/
structure GridNote where
  x : ℚ
  y : ℚ
  pc : Nat
  isScale : Bool
  isChordTone : Bool
deriving DecidableEq

/-- The frets visited by the inner loop `for (f = startFret; f <= endFret; f++)`. -/
def fretRange (startFret endFret : Nat) : List Nat :=
  (List.range (endFret + 1 - startFret)).map (· + startFret)

/-- The nested loop of `buildNotes`, for already-parsed open-string pitch
classes (string index 0 = lowest string, placed on the bottom row). -/
def buildNotesCore (openPCs : List Nat) (startFret endFret : Nat)
    (filter : Nat → Bool) (chordTones : List Nat) : List GridNote :=
  let strings := openPCs.length
  openPCs.enum.flatMap (fun se =>
    (fretRange startFret endFret).map (fun f =>
      let pc := (se.2 + f) % 12
      { x := ((f - startFret : Nat) : ℚ) + 1/2
        y := ((strings - 1 - se.1 : Nat) : ℚ) + 1/2
        pc := pc
        isScale := filter pc
        isChordTone := chordTones.contains pc }))

/-- The left-handed post-processing `n.x = maxX - n.x`. -/
def mirrorX (maxX : ℚ) (n : GridNote) : GridNote := { n with x := maxX - n.x }

/-- `buildNotes` from `music.ts`: parse the tuning with `pcOf` (which may
throw), build the grid, and mirror the x coordinates when `lefty`. -/
def buildNotes (tuning : List String) (startFret endFret : Nat) (lefty : Bool)
    (filter : Nat → Bool) (chordTones : List Nat) : Except String (List GridNote) := do
  let openPCs ← tuning.mapM pcOf
  let notes := buildNotesCore openPCs startFret endFret filter chordTones
  pure (if lefty then notes.map (mirrorX (((endFret - startFret : Nat) : ℚ) + 1)) else notes)

/-! ## Lookahead scheduler (`App.tsx`) -/

/-- The scheduler-owned state: the audio-clock time of the next beat event
(`nextBeatTimeRef`), the running beat counter (`beatRef`), the authoritative
bar (`currentBar`), and the audio-clock times of the tone events emitted so
far (in emission order). -/
structure SchedulerState where
  nextBeatTime : ℚ
  beat : Nat
  bar : Nat
  events : List ℚ
deriving DecidableEq

/-- One iteration of the `while` body in `schedule`: emit a click at
`nextBeatTime`, advance the beat counter, advance `currentBar` when the beat
wraps to 1, and add `secPerBeat` to `nextBeatTime`. -/
def schedStep (secPerBeat : ℚ) (beatsPerBar : Nat) (st : SchedulerState) : SchedulerState :=
  let t := st.nextBeatTime
  let curBeat := st.beat
  let nextBeat := if beatsPerBar ≤ curBeat then 1 else curBeat + 1
  { nextBeatTime := t + secPerBeat
    beat := nextBeat
    bar := if nextBeat = 1 then (if 12 ≤ st.bar then 1 else st.bar + 1) else st.bar
    events := st.events ++ [t] }

/-- The drain loop `while (nextBeatTime < ctx.currentTime + scheduleAheadSec)`
of one polling callback, fuelled (the loop always terminates since
`secPerBeat > 0`; any sufficiently large fuel computes the fixpoint). -/
def drainLoop (secPerBeat horizon : ℚ) (beatsPerBar : Nat) (now : ℚ) :
    Nat → SchedulerState → SchedulerState
  | 0, st => st
  | fuel + 1, st =>
    if st.nextBeatTime < now + horizon then
      drainLoop secPerBeat horizon beatsPerBar now fuel (schedStep secPerBeat beatsPerBar st)
    else st

/-- A whole Running session: the polling callback (`setInterval(schedule, 25)`)
fires at the given audio-clock times, in order. -/
def runPolls (secPerBeat horizon : ℚ) (beatsPerBar fuel : Nat) (polls : List ℚ)
    (st : SchedulerState) : SchedulerState :=
  polls.foldl (fun s now => drainLoop secPerBeat horizon beatsPerBar now fuel s) st

/-- The Idle-to-Running initialization: `nextBeatTimeRef.current =
ctx.currentTime + 0.05`, with no events emitted yet. -/
def startState (startTime : ℚ) (initBeat initBar : Nat) : SchedulerState :=
  { nextBeatTime := startTime + 1/20, beat := initBeat, bar := initBar, events := [] }

/-- The `secondsPerBeat` computation `60 / Math.max(1, bpm)`. -/
def secPerBeatOf (bpm : ℚ) : ℚ := 60 / max 1 bpm

/-- The manual bar input `setCurrentBar(Math.min(12, Math.max(1, v || 1)))`
(`v = 0` models the falsy `+e.target.value`). -/
def setBarClamp (v : Int) : Int := min 12 (max 1 (if v = 0 then 1 else v))

/-- The Prev button `setCurrentBar(b => (b <= 1 ? 12 : b - 1))`. -/
def prevBar (b : Nat) : Nat := if b ≤ 1 then 12 else b - 1

/-- The Next button (and the scheduler advance)
`setCurrentBar(b => (b >= 12 ? 1 : b + 1))`. -/
def nextBar (b : Nat) : Nat := if 12 ≤ b then 1 else b + 1

/-- The drift-freedom invariant of the scheduler: the emitted tone events are
exactly the arithmetic progression `t0 + k * secPerBeat`, and the next event
time is the next term of that progression. -/
def timingInv (t0 secPerBeat : ℚ) (st : SchedulerState) : Prop :=
  st.nextBeatTime = t0 + (st.events.length : ℚ) * secPerBeat
  ∧ st.events = (List.range st.events.length).map (fun (k : Nat) => t0 + (k : ℚ) * secPerBeat)

/-! ## Helper lemmas: chord-degree membership -/

theorem mem_addThird {ints l : List Nat} {d : Nat} :
    d ∈ addThird ints l ↔ (d ∈ l ∨ (d = 4 ∧ 4 ∈ ints) ∨ (d = 3 ∧ 3 ∈ ints ∧ 4 ∉ ints)) := by
  unfold addThird; split_ifs <;> simp_all

theorem mem_addFifth {ints l : List Nat} {d : Nat} :
    d ∈ addFifth ints l ↔ (d ∈ l ∨ (d = 7 ∧ 7 ∈ ints) ∨ (d = 6 ∧ 6 ∈ ints ∧ 7 ∉ ints)) := by
  unfold addFifth; split_ifs <;> simp_all

theorem mem_addSeventh {ints l : List Nat} {d : Nat} :
    d ∈ addSeventh ints l ↔ (d ∈ l ∨ (d = 10 ∧ 10 ∈ ints) ∨ (d = 11 ∧ 11 ∈ ints ∧ 10 ∉ ints)) := by
  unfold addSeventh; split_ifs <;> simp_all

theorem mem_addExtended {ints l : List Nat} {d : Nat} :
    d ∈ addExtended ints l ↔
      (d ∈ l ∨ (d = 2 ∧ 2 ∈ ints) ∨ (d = 5 ∧ 5 ∈ ints) ∨ (d = 9 ∧ 9 ∈ ints)) := by
  unfold addExtended; split_ifs <;> simp_all

theorem buildChordDegrees_off (ints : List Nat) :
    buildChordDegrees ints ChordToneMode.off = [] := rfl

theorem buildChordDegrees_triad (ints : List Nat) :
    buildChordDegrees ints ChordToneMode.triad = addFifth ints (addThird ints [0]) := rfl

theorem buildChordDegrees_seventh (ints : List Nat) :
    buildChordDegrees ints ChordToneMode.seventh
      = addSeventh ints (addFifth ints (addThird ints [0])) := rfl

theorem buildChordDegrees_extended (ints : List Nat) :
    buildChordDegrees ints ChordToneMode.extended
      = addExtended ints (addSeventh ints (addFifth ints (addThird ints [0]))) := rfl

/-- Full membership characterization of `buildChordDegrees`. -/
theorem mem_buildChordDegrees (ints : List Nat) (mode : ChordToneMode) (d : Nat) :
    d ∈ buildChordDegrees ints mode ↔
      (mode ≠ ChordToneMode.off ∧
        (d = 0
          ∨ (d = 4 ∧ 4 ∈ ints) ∨ (d = 3 ∧ 3 ∈ ints ∧ 4 ∉ ints)
          ∨ (d = 7 ∧ 7 ∈ ints) ∨ (d = 6 ∧ 6 ∈ ints ∧ 7 ∉ ints)
          ∨ ((mode = ChordToneMode.seventh ∨ mode = ChordToneMode.extended) ∧
              ((d = 10 ∧ 10 ∈ ints) ∨ (d = 11 ∧ 11 ∈ ints ∧ 10 ∉ ints)))
          ∨ (mode = ChordToneMode.extended ∧
              ((d = 2 ∧ 2 ∈ ints) ∨ (d = 5 ∧ 5 ∈ ints) ∨ (d = 9 ∧ 9 ∈ ints))))) := by
  cases mode
  case off => simp [buildChordDegrees_off]
  case triad =>
    rw [buildChordDegrees_triad, mem_addFifth, mem_addThird]
    simp only [List.mem_singleton, ne_eq, reduceCtorEq, not_false_iff, true_and,
      eq_self_iff_true, true_or, or_true, or_false, false_or, false_and, and_true, or_assoc]
  case seventh =>
    rw [buildChordDegrees_seventh, mem_addSeventh, mem_addFifth, mem_addThird]
    simp only [List.mem_singleton, ne_eq, reduceCtorEq, not_false_iff, true_and,
      eq_self_iff_true, true_or, or_true, or_false, false_or, false_and, and_true, or_assoc]
  case extended =>
    rw [buildChordDegrees_extended, mem_addExtended, mem_addSeventh, mem_addFifth, mem_addThird]
    simp only [List.mem_singleton, ne_eq, reduceCtorEq, not_false_iff, true_and,
      eq_self_iff_true, true_or, or_true, or_false, false_or, false_and, and_true, or_assoc]

/-- The seventh-mode list literally extends the triad-mode list. -/
theorem buildChordDegrees_seventh_eq (ints : List Nat) :
    buildChordDegrees ints ChordToneMode.seventh
      = addSeventh ints (buildChordDegrees ints ChordToneMode.triad) := rfl

/-- The extended-mode list literally extends the seventh-mode list. -/
theorem buildChordDegrees_extended_eq (ints : List Nat) :
    buildChordDegrees ints ChordToneMode.extended
      = addExtended ints (buildChordDegrees ints ChordToneMode.seventh) := rfl

/-- Every degree the builder promotes is either the root 0 or an interval of
the scale. -/
theorem buildChordDegrees_subset_intervals (ints : List Nat) (mode : ChordToneMode)
    (h0 : 0 ∈ ints) : ∀ d ∈ buildChordDegrees ints mode, d ∈ ints := by
  intro d hd
  rcases (mem_buildChordDegrees ints mode d).mp hd with ⟨-, h⟩
  rcases h with rfl | ⟨rfl, h⟩ | ⟨rfl, h, -⟩ | ⟨rfl, h⟩ | ⟨rfl, h, -⟩ | ⟨-, h7⟩ | ⟨-, hx⟩
  · exact h0
  · exact h
  · exact h
  · exact h
  · exact h
  · rcases h7 with ⟨rfl, h⟩ | ⟨rfl, h, -⟩ <;> exact h
  · rcases hx with ⟨rfl, h⟩ | ⟨rfl, h⟩ | ⟨rfl, h⟩ <;> exact h

/-- Membership in the absolute chord-tone set, unfolded. -/
theorem mem_chordToneSet {ints : List Nat} {tonic : Nat} {mode : ChordToneMode} {x : Nat} :
    x ∈ chordToneSet ints tonic mode
      ↔ ∃ d ∈ buildChordDegrees ints mode, (d + tonic) % 12 = x := by
  simp [chordToneSet]

/-! ## Claims C3, C4, C10 -/

/-- Claim C3: for every scale interval list and tonic, the chord-tone set is
built degree-by-degree — the root is always included; the third prefers 4 over
3 over neither; the fifth prefers 7 over 6 over neither; mode seventh prefers
10 over 11 over neither; mode extended additionally includes 2, 5, 9 where
present; mode off yields the empty set; each chosen degree is transposed by
`(degree + tonic) % 12`.  In particular intervals `[0,2,3,5,7,8,10]`, tonic 9,
mode seventh yields the absolute set `{9, 0, 4, 7}`. -/
theorem c3_chord_tone_builder :
    (∀ (ints : List Nat) (mode : ChordToneMode) (d : Nat),
      d ∈ buildChordDegrees ints mode ↔
        (mode ≠ ChordToneMode.off ∧
          (d = 0
            ∨ (d = 4 ∧ 4 ∈ ints) ∨ (d = 3 ∧ 3 ∈ ints ∧ 4 ∉ ints)
            ∨ (d = 7 ∧ 7 ∈ ints) ∨ (d = 6 ∧ 6 ∈ ints ∧ 7 ∉ ints)
            ∨ ((mode = ChordToneMode.seventh ∨ mode = ChordToneMode.extended) ∧
                ((d = 10 ∧ 10 ∈ ints) ∨ (d = 11 ∧ 11 ∈ ints ∧ 10 ∉ ints)))
            ∨ (mode = ChordToneMode.extended ∧
                ((d = 2 ∧ 2 ∈ ints) ∨ (d = 5 ∧ 5 ∈ ints) ∨ (d = 9 ∧ 9 ∈ ints))))))
    ∧ (∀ (ints : List Nat) (tonic : Nat) (mode : ChordToneMode),
        chordToneSet ints tonic mode
          = (buildChordDegrees ints mode).toFinset.image (fun d => (d + tonic) % 12))
    ∧ (∀ (ints : List Nat) (tonic : Nat),
        chordToneSet ints tonic ChordToneMode.off = ∅)
    ∧ chordToneSet [0, 2, 3, 5, 7, 8, 10] 9 ChordToneMode.seventh = {9, 0, 4, 7} := by
  refine ⟨mem_buildChordDegrees, ?_, ?_, ?_⟩
  · intro ints tonic mode
    ext x
    simp [chordToneSet, Finset.mem_image]
  · intro ints tonic
    rfl
  · decide

/-- Claim C4: for a fixed scale and tonic, the extended chord-tone set
contains the seventh set, which contains the triad set, which contains the
root pitch class. -/
theorem c4_chord_tone_monotonicity :
    ∀ (ints : List Nat) (tonic : Nat),
      chordToneSet ints tonic ChordToneMode.triad ⊆ chordToneSet ints tonic ChordToneMode.seventh
      ∧ chordToneSet ints tonic ChordToneMode.seventh
          ⊆ chordToneSet ints tonic ChordToneMode.extended
      ∧ tonic % 12 ∈ chordToneSet ints tonic ChordToneMode.triad := by
  intro ints tonic
  refine ⟨?_, ?_, ?_⟩
  · intro x hx
    rw [mem_chordToneSet] at hx ⊢
    obtain ⟨d, hd, hval⟩ := hx
    exact ⟨d, by rw [buildChordDegrees_seventh_eq]; exact mem_addSeventh.mpr (Or.inl hd), hval⟩
  · intro x hx
    rw [mem_chordToneSet] at hx ⊢
    obtain ⟨d, hd, hval⟩ := hx
    exact ⟨d, by rw [buildChordDegrees_extended_eq]; exact mem_addExtended.mpr (Or.inl hd), hval⟩
  · rw [mem_chordToneSet]
    refine ⟨0, ?_, by simp⟩
    rw [buildChordDegrees_triad]
    exact mem_addFifth.mpr (Or.inl (mem_addThird.mpr (Or.inl (by simp))))

/-- Claim C10: for every scale whose interval list contains 0, the
scale-derived chord-tone set only promotes degrees already present in the
scale, so it is a subset of the scale pitch-class set for every mode. -/
theorem c10_chord_tones_within_scale :
    ∀ (ints : List Nat) (tonic : Nat) (mode : ChordToneMode),
      0 ∈ ints → chordToneSet ints tonic mode ⊆ scalePitchClasses ints tonic := by
  intro ints tonic mode h0 x hx
  rw [mem_chordToneSet] at hx
  obtain ⟨d, hd, hval⟩ := hx
  have hdi : d ∈ ints := buildChordDegrees_subset_intervals ints mode h0 d hd
  simp only [scalePitchClasses, List.mem_toFinset, List.mem_map]
  exact ⟨d, hdi, hval⟩

/-- Witness for C10 at the C-major scale, tonic C, mode extended. -/
theorem c10_chord_tones_within_scale_witness :
    chordToneSet [0, 2, 4, 5, 7, 9, 11] 0 ChordToneMode.extended
      ⊆ scalePitchClasses [0, 2, 4, 5, 7, 9, 11] 0 :=
  c10_chord_tones_within_scale [0, 2, 4, 5, 7, 9, 11] 0 ChordToneMode.extended (by decide)

/-! ## Claims C5, C6, C7 -/

/-- Counterexample for claim C5: the label table also depends on the
`preferSharps` flag at slot 8 (`#5` versus `b6`), not only at slots 1 and 6. -/
theorem c5_degree_label_counterexample :
    degreeLabel 0 8 true = "#5" ∧ degreeLabel 0 8 false = "b6"
      ∧ degreeLabel 0 8 true ≠ degreeLabel 0 8 false := by decide

/-- Claim C5 as amended: `degreeLabel` indexes the fixed 12-entry table at
`(note - tonic + 12) % 12`, and `preferSharp` changes the result exactly at
the three enharmonic slots 1, 6 and 8 semitones above the tonic. -/
theorem c5_degree_label_amended :
    ∀ (tonic note : Fin 12) (ps : Bool),
      degreeLabel tonic note ps = (degreeTable ps).getD ((note.val + 12 - tonic.val) % 12) ""
      ∧ (((note.val + 12 - tonic.val) % 12 ≠ 1 ∧ (note.val + 12 - tonic.val) % 12 ≠ 6
            ∧ (note.val + 12 - tonic.val) % 12 ≠ 8) →
          degreeLabel tonic note true = degreeLabel tonic note false)
      ∧ (((note.val + 12 - tonic.val) % 12 = 1 ∨ (note.val + 12 - tonic.val) % 12 = 6
            ∨ (note.val + 12 - tonic.val) % 12 = 8) →
          degreeLabel tonic note true ≠ degreeLabel tonic note false) := by decide

/-- Witness for the amended C5: at slot 2 the label is flag-independent. -/
theorem c5_degree_label_amended_witness :
    degreeLabel 0 2 true = degreeLabel 0 2 false :=
  (c5_degree_label_amended 0 2 true).2.1 (by decide)

/-- Counterexample for claim C6: `pcOf` is not case-insensitive — the trailing
minor marker is only stripped when it is a lowercase `m`, so `Am` parses while
its upper-cased form `AM` throws. -/
theorem c6_parse_note_counterexample :
    pcOf "Am" = Except.ok 9 ∧ jsToUpper "Am" = "AM"
      ∧ pcOf (jsToUpper "Am") = Except.error "Unknown note: AM"
      ∧ pcOf (jsToUpper "Am") ≠ pcOf "Am" := by decide

/-- Claim C6 as amended: `pcOf` trims, strips one trailing lowercase `m`,
upper-cases, then looks the text up in the fixed table (so note letters and
accidentals are case-insensitive, but an uppercase minor marker is not
stripped); it returns the table value when the normalized text matches an
entry (including E#, Fb, B#, Cb) and throws `UnknownNoteError` exactly when it
matches no entry — never silently defaulting. -/
theorem c6_parse_note_amended :
    (∀ (name : String) (v : Nat),
        lookupNote noteMap (jsToUpper (stripTrailingM (jsTrim name))) = some v →
        pcOf name = Except.ok (v % 12))
    ∧ (∀ name : String,
        lookupNote noteMap (jsToUpper (stripTrailingM (jsTrim name))) = none →
        pcOf name = Except.error ("Unknown note: " ++ name))
    ∧ (∀ name : String, (∃ v, pcOf name = Except.ok v)
        ↔ ∃ v, lookupNote noteMap (jsToUpper (stripTrailingM (jsTrim name))) = some v)
    ∧ (pcOf " c# " = Except.ok 1 ∧ pcOf "fb" = Except.ok 4 ∧ pcOf "e#" = Except.ok 5
        ∧ pcOf "cb" = Except.ok 11 ∧ pcOf "b#" = Except.ok 0 ∧ pcOf "Bbm" = Except.ok 10
        ∧ pcOf "Am" = Except.ok 9 ∧ pcOf "AM" = Except.error "Unknown note: AM") := by
  refine ⟨?_, ?_, ?_, by decide⟩
  · intro name v h
    simp [pcOf, h]
  · intro name h
    simp [pcOf, h]
  · intro name
    cases h : lookupNote noteMap (jsToUpper (stripTrailingM (jsTrim name))) <;> simp [pcOf, h]

/-- Witness for the amended C6: an unknown name (`H`) is rejected with the
original text in the error, not defaulted. -/
theorem c6_parse_note_amended_witness :
    pcOf "H" = Except.error "Unknown note: H" :=
  c6_parse_note_amended.2.1 "H" (by decide)

/-- Claim C7: the per-bar chord-tone set is the fixed template (`triad` to
`{0,4,7}`, `dom7` to `{0,4,7,10}`) transposed mod 12 by the root parsed from
the leading letter+accidental prefix of the chord name at that bar; any text
after the letter+accidental is ignored, and a malformed prefix degrades to
pitch class 0 instead of failing. -/
theorem c7_bar_chord_tones :
    (chordDegreesFor ChordQuality.triad = [0, 4, 7]
      ∧ chordDegreesFor ChordQuality.dom7 = [0, 4, 7, 10])
    ∧ (∀ (progression : List String) (bar : Nat) (q : ChordQuality),
        barChordTones progression bar q
          = ((chordDegreesFor q).map
              (fun d => (d + pcFromNameUnsafe (chordNameAt progression bar) % 12) % 12)).toFinset)
    ∧ (∀ (c d : Char) (rest1 rest2 : List Char),
        pcCore (c :: d :: rest1) = pcCore (c :: d :: rest2))
    ∧ (∀ (name : String) (c : Char), (jsTrim name).data.head? = some c →
        letterBase c.toUpper = none → pcFromNameUnsafe name = 0)
    ∧ (pcFromNameUnsafe "" = 0 ∧ pcFromNameUnsafe "Bb7" = 10 ∧ pcFromNameUnsafe "Edim" = 4
        ∧ pcFromNameUnsafe "G7" = 7 ∧ pcFromNameUnsafe "7alt" = 0
        ∧ barChordTones ["A", "D", "A", "A", "D", "D", "A", "A", "E", "D", "E", "A"] 9
            ChordQuality.dom7 = {4, 8, 11, 2}) := by
  refine ⟨⟨rfl, rfl⟩, fun _ _ _ => rfl, ?_, ?_, by decide⟩
  · intro c d rest1 rest2
    cases hb : letterBase c.toUpper <;> simp [pcCore, hb, accOf]
  · intro name c hc hb
    unfold pcFromNameUnsafe
    cases h : (jsTrim name).data with
    | nil => rfl
    | cons c0 rest =>
      rw [h] at hc
      simp only [List.head?] at hc
      cases hc
      simp [pcCore, hb]

/-! ## Helper lemmas: note grid -/

theorem sum_map_const {α : Type} (l : List α) (c : Nat) : (l.map (fun _ => c)).sum = l.length * c := by
  induction l with
  | nil => simp
  | cons a t ih => simp [ih, Nat.succ_mul, Nat.add_comm]

theorem length_fretRange (s e : Nat) : (fretRange s e).length = e + 1 - s := by
  simp [fretRange]

theorem mapM_pcOf_length (tuning : List String) (o : List Nat)
    (h : tuning.mapM pcOf = Except.ok o) : o.length = tuning.length := by
  induction tuning generalizing o with
  | nil =>
    simp only [List.mapM_nil, pure, Except.pure] at h
    cases h
    rfl
  | cons a t ih =>
    rw [List.mapM_cons] at h
    cases ha : pcOf a with
    | error msg => rw [ha] at h; simp [Bind.bind, Except.bind] at h
    | ok v =>
      rw [ha] at h
      cases ht : t.mapM pcOf with
      | error msg =>
        rw [ht] at h; simp [Bind.bind, Except.bind, pure, Except.pure] at h
      | ok vs =>
        rw [ht] at h
        simp only [Bind.bind, Except.bind, pure, Except.pure, Except.ok.injEq] at h
        subst h
        simp [ih vs ht]

theorem buildNotes_ok_false (tuning : List String) (o : List Nat) (s e : Nat)
    (fl : Nat → Bool) (ct : List Nat) (h : tuning.mapM pcOf = Except.ok o) :
    buildNotes tuning s e false fl ct = Except.ok (buildNotesCore o s e fl ct) := by
  unfold buildNotes
  rw [h]
  rfl

theorem buildNotes_ok_true (tuning : List String) (o : List Nat) (s e : Nat)
    (fl : Nat → Bool) (ct : List Nat) (h : tuning.mapM pcOf = Except.ok o) :
    buildNotes tuning s e true fl ct
      = Except.ok ((buildNotesCore o s e fl ct).map (mirrorX (((e - s : Nat) : ℚ) + 1))) := by
  unfold buildNotes
  rw [h]
  rfl

theorem except_map_ok {ε α β : Type} (f : α → β) (a : α) :
    Except.map f (Except.ok a : Except ε α) = Except.ok (f a) := rfl

theorem buildNotes_error (tuning : List String) (msg : String) (s e : Nat) (lefty : Bool)
    (fl : Nat → Bool) (ct : List Nat) (h : tuning.mapM pcOf = Except.error msg) :
    buildNotes tuning s e lefty fl ct = Except.error msg := by
  unfold buildNotes
  rw [h]
  rfl

theorem length_buildNotesCore (o : List Nat) (s e : Nat) (fl : Nat → Bool) (ct : List Nat) :
    (buildNotesCore o s e fl ct).length = o.length * (e + 1 - s) := by
  unfold buildNotesCore
  rw [List.length_flatMap]
  simp only [Function.comp_def, List.length_map, length_fretRange]
  rw [sum_map_const, List.enum_length]

/-- The coordinate pairs of the unmirrored grid, as an explicit double range. -/
theorem coords_buildNotesCore (o : List Nat) (s e : Nat) (fl : Nat → Bool) (ct : List Nat) :
    (buildNotesCore o s e fl ct).map (fun n => (n.x, n.y))
      = (List.range o.length).flatMap (fun si => (List.range (e + 1 - s)).map
          (fun (r : Nat) => (((r : ℚ) + 1/2, ((o.length - 1 - si : Nat) : ℚ) + 1/2) : ℚ × ℚ))) := by
  unfold buildNotesCore fretRange
  rw [List.map_flatMap]
  rw [← List.enum_map_fst o, List.flatMap_map]
  congr 1
  funext se
  rw [List.map_map, List.map_map]
  apply List.map_congr_left
  intro r _
  simp

theorem nodup_coords_buildNotesCore (o : List Nat) (s e : Nat) (fl : Nat → Bool)
    (ct : List Nat) :
    ((buildNotesCore o s e fl ct).map (fun n => (n.x, n.y))).Nodup := by
  rw [coords_buildNotesCore, List.nodup_flatMap]
  constructor
  · intro si _
    refine List.Nodup.map ?_ (List.nodup_range _)
    intro a b hab
    have h0 : ((a : ℚ) + 1/2, ((o.length - 1 - si : Nat) : ℚ) + 1/2)
        = ((b : ℚ) + 1/2, ((o.length - 1 - si : Nat) : ℚ) + 1/2) := hab
    have h1 : (a : ℚ) + 1/2 = (b : ℚ) + 1/2 := congrArg Prod.fst h0
    have h2 : (a : ℚ) = (b : ℚ) := by linarith
    exact_mod_cast h2
  · refine List.Pairwise.imp_of_mem ?_ (List.pairwise_lt_range _)
    intro a b ha hb hlt
    intro p hpa hpb
    rw [List.mem_map] at hpa hpb
    obtain ⟨ra, -, hra⟩ := hpa
    obtain ⟨rb, -, hrb⟩ := hpb
    rw [List.mem_range] at ha hb
    have h0 := hra.trans hrb.symm
    have hy1 : ((o.length - 1 - a : Nat) : ℚ) + 1/2 = ((o.length - 1 - b : Nat) : ℚ) + 1/2 :=
      congrArg Prod.snd h0
    have hy : ((o.length - 1 - a : Nat) : ℚ) = ((o.length - 1 - b : Nat) : ℚ) := by linarith
    have hy2 : o.length - 1 - a = o.length - 1 - b := by exact_mod_cast hy
    omega

theorem mem_buildNotesCore (o : List Nat) (s e : Nat) (fl : Nat → Bool) (ct : List Nat)
    (si f : Nat) (hsi : si < o.length) (h1 : s ≤ f) (h2 : f ≤ e) :
    ({ x := ((f - s : Nat) : ℚ) + 1/2
       y := ((o.length - 1 - si : Nat) : ℚ) + 1/2
       pc := (o.getD si 0 + f) % 12
       isScale := fl ((o.getD si 0 + f) % 12)
       isChordTone := ct.contains ((o.getD si 0 + f) % 12) } : GridNote)
      ∈ buildNotesCore o s e fl ct := by
  unfold buildNotesCore
  rw [List.mem_flatMap]
  refine ⟨(si, o.getD si 0), ?_, ?_⟩
  · rw [List.mem_enum_iff_getElem?]
    simp only
    rw [List.getElem?_eq_getElem hsi, List.getD_eq_getElem o 0 hsi]
  · rw [List.mem_map]
    refine ⟨f, ?_, rfl⟩
    unfold fretRange
    rw [List.mem_map]
    exact ⟨f - s, by rw [List.mem_range]; omega, by omega⟩

theorem nodup_coords_mirrored (o : List Nat) (s e : Nat) (fl : Nat → Bool) (ct : List Nat)
    (W : ℚ) :
    (((buildNotesCore o s e fl ct).map (mirrorX W)).map (fun n => (n.x, n.y))).Nodup := by
  rw [List.map_map]
  have hcomp : ((fun n : GridNote => (n.x, n.y)) ∘ mirrorX W)
      = (fun p : ℚ × ℚ => (W - p.1, p.2)) ∘ (fun n : GridNote => (n.x, n.y)) := rfl
  rw [hcomp, ← List.map_map]
  refine List.Nodup.map ?_ (nodup_coords_buildNotesCore o s e fl ct)
  intro p q hpq
  have hpq2 : ((W - p.1, p.2) : ℚ × ℚ) = (W - q.1, q.2) := hpq
  injection hpq2 with h1 h2
  have h3 : p.1 = q.1 := by linarith
  exact Prod.ext h3 h2

/-! ## Claims C8, C9 -/

/-- Claim C8: for a tuning of valid note names and a window with
`startFret ≤ endFret`, `buildNotes` yields exactly
`stringCount * (endFret - startFret + 1)` records, no two of which share their
(string, fret) origin (equivalently, their cell coordinates), and the record
of string `si` and fret `f` carries pitch class
`(openPitchClass[si] + f) % 12`. -/
theorem c8_grid_generator :
    ∀ (tuning : List String) (openPCs : List Nat) (s e : Nat) (lefty : Bool)
      (fl : Nat → Bool) (ct : List Nat),
      tuning.mapM pcOf = Except.ok openPCs → s ≤ e →
      ∃ notes, buildNotes tuning s e lefty fl ct = Except.ok notes
        ∧ notes.length = tuning.length * (e - s + 1)
        ∧ (notes.map (fun n => (n.x, n.y))).Nodup
        ∧ (∀ si f, si < openPCs.length → s ≤ f → f ≤ e →
            ∃ n ∈ notes, n.pc = (openPCs.getD si 0 + f) % 12
              ∧ n.y = ((tuning.length - 1 - si : Nat) : ℚ) + 1/2
              ∧ n.x = (if lefty
                  then (((e - s : Nat) : ℚ) + 1) - (((f - s : Nat) : ℚ) + 1/2)
                  else ((f - s : Nat) : ℚ) + 1/2)) := by
  intro tuning openPCs s e lefty fl ct h hse
  have hlen := mapM_pcOf_length tuning openPCs h
  cases lefty
  case false =>
    refine ⟨buildNotesCore openPCs s e fl ct, buildNotes_ok_false tuning openPCs s e fl ct h,
      ?_, ?_, ?_⟩
    · rw [length_buildNotesCore, hlen]
      congr 1
      omega
    · exact nodup_coords_buildNotesCore openPCs s e fl ct
    · intro si f hsi hf1 hf2
      exact ⟨_, mem_buildNotesCore openPCs s e fl ct si f hsi hf1 hf2, rfl,
        by rw [hlen], rfl⟩
  case true =>
    refine ⟨(buildNotesCore openPCs s e fl ct).map (mirrorX (((e - s : Nat) : ℚ) + 1)),
      buildNotes_ok_true tuning openPCs s e fl ct h, ?_, ?_, ?_⟩
    · rw [List.length_map, length_buildNotesCore, hlen]
      congr 1
      omega
    · exact nodup_coords_mirrored openPCs s e fl ct _
    · intro si f hsi hf1 hf2
      refine ⟨mirrorX (((e - s : Nat) : ℚ) + 1)
          ({ x := ((f - s : Nat) : ℚ) + 1/2
             y := ((openPCs.length - 1 - si : Nat) : ℚ) + 1/2
             pc := (openPCs.getD si 0 + f) % 12
             isScale := fl ((openPCs.getD si 0 + f) % 12)
             isChordTone := ct.contains ((openPCs.getD si 0 + f) % 12) }),
        List.mem_map_of_mem _ (mem_buildNotesCore openPCs s e fl ct si f hsi hf1 hf2),
        rfl, ?_, rfl⟩
      rw [hlen]
      rfl

/-- Witness for C8: the standard 6-string tuning over window [0, 12] yields
exactly 78 records with pairwise-distinct cell coordinates. -/
theorem c8_grid_generator_witness :
    ∃ notes, buildNotes standardTuning 0 12 false (fun _ => true) [] = Except.ok notes
      ∧ notes.length = 78
      ∧ (notes.map (fun n => (n.x, n.y))).Nodup := by
  obtain ⟨notes, h1, h2, h3, -⟩ :=
    c8_grid_generator standardTuning [4, 9, 2, 7, 11, 4] 0 12 false (fun _ => true) []
      (by decide) (by decide)
  exact ⟨notes, h1, by rw [h2]; rfl, h3⟩

/-- Claim C9: the left-handed grid is the right-handed grid with each column
coordinate replaced by `windowWidth - col` (where
`windowWidth = endFret - startFret + 1`); row, pitch class, scale and
chord-tone flags are unchanged, and row order is never mirrored. -/
theorem c9_lefty_mirrors_columns_only :
    ∀ (tuning : List String) (s e : Nat) (fl : Nat → Bool) (ct : List Nat),
      buildNotes tuning s e true fl ct
        = Except.map (List.map (mirrorX (((e - s : Nat) : ℚ) + 1)))
            (buildNotes tuning s e false fl ct)
      ∧ Except.map (List.map (fun n => n.y)) (buildNotes tuning s e true fl ct)
          = Except.map (List.map (fun n => n.y)) (buildNotes tuning s e false fl ct)
      ∧ Except.map (List.map (fun n => n.pc)) (buildNotes tuning s e true fl ct)
          = Except.map (List.map (fun n => n.pc)) (buildNotes tuning s e false fl ct)
      ∧ Except.map (List.map (fun n => n.isScale)) (buildNotes tuning s e true fl ct)
          = Except.map (List.map (fun n => n.isScale)) (buildNotes tuning s e false fl ct)
      ∧ Except.map (List.map (fun n => n.isChordTone)) (buildNotes tuning s e true fl ct)
          = Except.map (List.map (fun n => n.isChordTone)) (buildNotes tuning s e false fl ct)
      ∧ Except.map (List.map (fun n => n.x)) (buildNotes tuning s e true fl ct)
          = Except.map (List.map (fun n => (((e - s : Nat) : ℚ) + 1) - n.x))
              (buildNotes tuning s e false fl ct) := by
  intro tuning s e fl ct
  cases h : tuning.mapM pcOf with
  | error msg =>
    rw [buildNotes_error tuning msg s e true fl ct h, buildNotes_error tuning msg s e false fl ct h]
    exact ⟨rfl, rfl, rfl, rfl, rfl, rfl⟩
  | ok o =>
    rw [buildNotes_ok_true tuning o s e fl ct h, buildNotes_ok_false tuning o s e fl ct h]
    refine ⟨rfl, ?_, ?_, ?_, ?_, ?_⟩ <;> simp only [except_map_ok, List.map_map] <;> rfl

/-! ## Helper lemmas: scheduler -/

theorem timingInv_schedStep {t0 spb : ℚ} {bpb : Nat} {st : SchedulerState}
    (h : timingInv t0 spb st) : timingInv t0 spb (schedStep spb bpb st) := by
  obtain ⟨h1, h2⟩ := h
  have hev : (schedStep spb bpb st).events = st.events ++ [st.nextBeatTime] := rfl
  have hnext : (schedStep spb bpb st).nextBeatTime = st.nextBeatTime + spb := rfl
  constructor
  · rw [hnext, hev, h1, List.length_append, List.length_singleton]
    push_cast
    ring
  · rw [hev, List.length_append, List.length_singleton, List.range_succ, List.map_append]
    rw [← h2]
    simp [h1]

theorem timingInv_drainLoop {t0 spb : ℚ} (horizon now : ℚ) (bpb : Nat) (fuel : Nat)
    (st : SchedulerState) (h : timingInv t0 spb st) :
    timingInv t0 spb (drainLoop spb horizon bpb now fuel st) := by
  induction fuel generalizing st with
  | zero => exact h
  | succ fuel ih =>
    unfold drainLoop
    split_ifs
    · exact ih _ (timingInv_schedStep h)
    · exact h

theorem timingInv_runPolls {t0 spb : ℚ} (horizon : ℚ) (bpb fuel : Nat) (polls : List ℚ)
    (st : SchedulerState) (h : timingInv t0 spb st) :
    timingInv t0 spb (runPolls spb horizon bpb fuel polls st) := by
  induction polls generalizing st with
  | nil => exact h
  | cons p rest ih => exact ih _ (timingInv_drainLoop horizon p bpb fuel st h)

theorem timingInv_startState (startTime : ℚ) (spb : ℚ) (initBeat initBar : Nat) :
    timingInv (startTime + 1/20) spb (startState startTime initBeat initBar) := by
  constructor <;> simp [startState]

theorem nextBeatTime_mono_drainLoop {spb : ℚ} (horizon now : ℚ) (bpb : Nat) (hspb : 0 ≤ spb)
    (fuel : Nat) (st : SchedulerState) :
    st.nextBeatTime ≤ (drainLoop spb horizon bpb now fuel st).nextBeatTime := by
  induction fuel generalizing st with
  | zero => exact le_refl _
  | succ fuel ih =>
    unfold drainLoop
    split_ifs
    · refine le_trans ?_ (ih (schedStep spb bpb st))
      have : (schedStep spb bpb st).nextBeatTime = st.nextBeatTime + spb := rfl
      rw [this]
      linarith
    · exact le_refl _

theorem nextBeatTime_mono_runPolls {spb : ℚ} (horizon : ℚ) (bpb fuel : Nat) (hspb : 0 ≤ spb)
    (polls : List ℚ) (st : SchedulerState) :
    st.nextBeatTime ≤ (runPolls spb horizon bpb fuel polls st).nextBeatTime := by
  induction polls generalizing st with
  | nil => exact le_refl _
  | cons p rest ih =>
    exact le_trans (nextBeatTime_mono_drainLoop horizon p bpb hspb fuel st) (ih _)

/-- After a polling callback with enough fuel, the next event time has been
pushed past the lookahead horizon. -/
theorem drainLoop_past_horizon {spb horizon now : ℚ} {bpb : Nat} (fuel : Nat)
    (st : SchedulerState) (h : now + horizon ≤ st.nextBeatTime + (fuel : ℚ) * spb) :
    now + horizon ≤ (drainLoop spb horizon bpb now fuel st).nextBeatTime := by
  induction fuel generalizing st with
  | zero =>
    simp only [Nat.cast_zero, zero_mul, add_zero] at h
    exact h
  | succ fuel ih =>
    unfold drainLoop
    split_ifs with hlt
    · refine ih (schedStep spb bpb st) ?_
      have : (schedStep spb bpb st).nextBeatTime = st.nextBeatTime + spb := rfl
      rw [this]
      push_cast at h ⊢
      linarith
    · linarith [not_lt.mp hlt]

/-- Every event emitted during one polling callback lies below that callback's
lookahead horizon. -/
theorem events_drainLoop_bound {spb horizon now : ℚ} {bpb : Nat} (fuel : Nat)
    (st : SchedulerState) :
    ∀ t ∈ (drainLoop spb horizon bpb now fuel st).events,
      t ∈ st.events ∨ t < now + horizon := by
  induction fuel generalizing st with
  | zero => exact fun t ht => Or.inl ht
  | succ fuel ih =>
    unfold drainLoop
    split_ifs with hlt
    · intro t ht
      rcases ih (schedStep spb bpb st) t ht with hin | hb
      · have : (schedStep spb bpb st).events = st.events ++ [st.nextBeatTime] := rfl
        rw [this, List.mem_append, List.mem_singleton] at hin
        rcases hin with hin | rfl
        · exact Or.inl hin
        · exact Or.inr hlt
      · exact Or.inr hb
    · exact fun t ht => Or.inl ht

/-- Every event emitted during a Running session lies below the horizon of one
of its polling callbacks. -/
theorem events_runPolls_bound {spb : ℚ} (horizon : ℚ) (bpb fuel : Nat) (polls : List ℚ)
    (st : SchedulerState) :
    ∀ t ∈ (runPolls spb horizon bpb fuel polls st).events,
      t ∈ st.events ∨ ∃ p ∈ polls, t < p + horizon := by
  induction polls generalizing st with
  | nil => exact fun t ht => Or.inl ht
  | cons p rest ih =>
    intro t ht
    rcases ih (drainLoop spb horizon bpb p fuel st) t ht with hin | ⟨q, hq, hb⟩
    · rcases events_drainLoop_bound fuel st t hin with hin2 | hb
      · exact Or.inl hin2
      · exact Or.inr ⟨p, List.mem_cons_self p rest, hb⟩
    · exact Or.inr ⟨q, List.mem_cons_of_mem p hq, hb⟩

theorem runPolls_append {spb horizon : ℚ} {bpb fuel : Nat} (l1 l2 : List ℚ)
    (st : SchedulerState) :
    runPolls spb horizon bpb fuel (l1 ++ l2) st
      = runPolls spb horizon bpb fuel l2 (runPolls spb horizon bpb fuel l1 st) := by
  unfold runPolls
  exact List.foldl_append ..

/-! ## Claims C1, C2 -/

/-- Witness for C7: a chord name with no letter prefix degrades to pitch
class 0. -/
theorem c7_bar_chord_tones_witness : pcFromNameUnsafe "&5" = 0 :=
  c7_bar_chord_tones.2.2.2.1 "&5" '&' (by rfl) (by rfl)

/-- Claim C1: with fixed `bpm >= 1` the k-th tone event of a Running session
is scheduled at audio-clock time `startTime + 0.05 + k * (60 / bpm)` no matter
when the polling callback fires; and over an 8-second run at bpm 120 (any
polling times within the window whose last callback fires after 7.45 s, with
enough fuel for the drain loop), the emitted tone events are exactly the 16
times 0.05, 0.55, ..., 7.55, spaced exactly 0.5 s apart. -/
theorem c1_scheduler_timing :
    (∀ (startTime bpm : ℚ) (bpb fuel initBeat initBar : Nat) (polls : List ℚ),
      1 ≤ bpm →
      (runPolls (secPerBeatOf bpm) (1/10) bpb fuel polls
          (startState startTime initBeat initBar)).events
        = (List.range (runPolls (secPerBeatOf bpm) (1/10) bpb fuel polls
              (startState startTime initBeat initBar)).events.length).map
            (fun (k : Nat) => startTime + 1/20 + (k : ℚ) * (60 / bpm)))
    ∧ (∀ (polls : List ℚ) (fuel : Nat),
        (∀ p ∈ polls, p ≤ 79/10) → (∃ p ∈ polls, 149/20 < p) → 16 ≤ fuel →
        (runPolls (secPerBeatOf 120) (1/10) 4 fuel polls (startState 0 1 1)).events
          = (List.range 16).map (fun (k : Nat) => 1/20 + (k : ℚ) * (1/2))) := by
  constructor
  · intro startTime bpm bpb fuel initBeat initBar polls hb
    have hspb : secPerBeatOf bpm = 60 / bpm := by
      unfold secPerBeatOf
      rw [max_eq_right hb]
    rw [hspb]
    have hinv := timingInv_runPolls (1/10) bpb fuel polls
      (startState startTime initBeat initBar)
      (timingInv_startState startTime (60 / bpm) initBeat initBar)
    exact hinv.2
  · intro polls fuel hall hex hfuel
    obtain ⟨p, hpmem, hp⟩ := hex
    have hspb : secPerBeatOf 120 = 1/2 := by
      unfold secPerBeatOf
      rw [max_eq_right (by norm_num : (1 : ℚ) ≤ 120)]
      norm_num
    rw [hspb]
    have hinv := timingInv_runPolls (1/10) 4 fuel polls
      (startState 0 1 1) (timingInv_startState 0 (1/2) 1 1)
    obtain ⟨h1, h2⟩ := hinv
    -- the last late poll pushes the next event time past 7.55 s
    obtain ⟨l1, l2, hsplit⟩ := List.append_of_mem hpmem
    have hrun : runPolls (1/2) (1/10) 4 fuel polls (startState 0 1 1)
        = runPolls (1/2) (1/10) 4 fuel l2
            (drainLoop (1/2) (1/10) 4 p fuel
              (runPolls (1/2) (1/10) 4 fuel l1 (startState 0 1 1))) := by
      rw [hsplit, runPolls_append]
      rfl
    have hhalf : (0 : ℚ) ≤ 1/2 := by norm_num
    have hm1 : (1 : ℚ)/20 ≤ (runPolls (1/2) (1/10) 4 fuel l1
        (startState 0 1 1)).nextBeatTime := by
      have := nextBeatTime_mono_runPolls (1/10) 4 fuel hhalf l1 (startState 0 1 1)
      have hss : (startState 0 1 1).nextBeatTime = 0 + 1/20 := rfl
      rw [hss] at this
      linarith
    have hfq : (16 : ℚ) ≤ (fuel : ℚ) := by exact_mod_cast hfuel
    have hple : p ≤ 79/10 := hall p hpmem
    have hd : p + 1/10 ≤ (drainLoop (1/2) (1/10) 4 p fuel
        (runPolls (1/2) (1/10) 4 fuel l1 (startState 0 1 1))).nextBeatTime := by
      refine drainLoop_past_horizon fuel _ ?_
      nlinarith
    have hfinal : p + 1/10
        ≤ (runPolls (1/2) (1/10) 4 fuel polls (startState 0 1 1)).nextBeatTime := by
      rw [hrun]
      exact le_trans hd (nextBeatTime_mono_runPolls (1/10) 4 fuel hhalf l2 _)
    -- hence at least 16 events were emitted
    have hlow : 16 ≤ (runPolls (1/2) (1/10) 4 fuel polls
        (startState 0 1 1)).events.length := by
      rw [h1] at hfinal
      have h15 : (15 : ℚ) < ((runPolls (1/2) (1/10) 4 fuel polls
          (startState 0 1 1)).events.length : ℚ) := by linarith
      have : 15 < (runPolls (1/2) (1/10) 4 fuel polls
          (startState 0 1 1)).events.length := by exact_mod_cast h15
      omega
    -- and no event at or beyond 8 s was emitted, so exactly 16
    have hup : (runPolls (1/2) (1/10) 4 fuel polls
        (startState 0 1 1)).events.length ≤ 16 := by
      by_contra hgt
      have h17 : 17 ≤ (runPolls (1/2) (1/10) 4 fuel polls
          (startState 0 1 1)).events.length := by omega
      have hmem : ((0 : ℚ) + 1/20 + ((16 : Nat) : ℚ) * (1/2))
          ∈ (runPolls (1/2) (1/10) 4 fuel polls (startState 0 1 1)).events := by
        rw [h2]
        exact List.mem_map.mpr ⟨16, List.mem_range.mpr (by omega), rfl⟩
      rcases events_runPolls_bound (1/10) 4 fuel polls (startState 0 1 1) _ hmem
        with hin | ⟨q, hq, hb⟩
      · simp [startState] at hin
      · have hqle : q ≤ 79/10 := hall q hq
        have h16 : ((16 : Nat) : ℚ) = 16 := by norm_num
        rw [h16] at hb
        linarith
    have hlen : (runPolls (1/2) (1/10) 4 fuel polls
        (startState 0 1 1)).events.length = 16 := by omega
    rw [h2, hlen]
    apply List.map_congr_left
    intro k _
    ring

/-- Witness for C1: a single poll at clock time 0 emits its first tone exactly
at `startTime + 0.05`. -/
theorem c1_scheduler_timing_witness :
    (runPolls (secPerBeatOf 120) (1/10) 4 2 [0] (startState 0 1 1)).events
      = (List.range (runPolls (secPerBeatOf 120) (1/10) 4 2 [0]
            (startState 0 1 1)).events.length).map
          (fun (k : Nat) => 0 + 1/20 + (k : ℚ) * (60 / 120)) :=
  c1_scheduler_timing.1 0 120 4 2 1 1 [0] (by norm_num)

/-- Claim C2: the scheduler advances `currentBar` exactly on transitions of
the beat counter to 1, mapping bar `b` to `(b % 12) + 1` (so 1, 2, ..., 12, 1
with no skips or repeats), and every operation that changes `currentBar` (the
scheduler advance, the clamped manual input, Prev, Next) keeps it in
[1, 12]. -/
theorem c2_bar_invariants :
    (∀ (spb : ℚ) (bpb : Nat) (st : SchedulerState), 1 ≤ st.bar → st.bar ≤ 12 →
        (((schedStep spb bpb st).bar ≠ st.bar ↔ (schedStep spb bpb st).beat = 1)
          ∧ ((schedStep spb bpb st).beat = 1 → (schedStep spb bpb st).bar = st.bar % 12 + 1)
          ∧ 1 ≤ (schedStep spb bpb st).bar ∧ (schedStep spb bpb st).bar ≤ 12))
    ∧ (∀ v : Int, 1 ≤ setBarClamp v ∧ setBarClamp v ≤ 12)
    ∧ (∀ b : Nat, 1 ≤ b → b ≤ 12 →
        (nextBar b = b % 12 + 1 ∧ 1 ≤ nextBar b ∧ nextBar b ≤ 12
          ∧ 1 ≤ prevBar b ∧ prevBar b ≤ 12)) := by
  refine ⟨?_, ?_, ?_⟩
  · intro spb bpb st hb1 hb2
    have hbar : (schedStep spb bpb st).bar
        = (if (if bpb ≤ st.beat then 1 else st.beat + 1) = 1
            then (if 12 ≤ st.bar then 1 else st.bar + 1) else st.bar) := rfl
    have hbeat : (schedStep spb bpb st).beat = (if bpb ≤ st.beat then 1 else st.beat + 1) := rfl
    rw [hbar, hbeat]
    split_ifs <;> omega
  · intro v
    unfold setBarClamp
    split_ifs <;> omega
  · intro b h1 h2
    unfold nextBar prevBar
    split_ifs <;> omega

/-- Witness for C2: at beats-per-bar 4, beat 4, bar 12 the step wraps the bar
to 1. -/
theorem c2_bar_invariants_witness :
    ((schedStep 1 4 ⟨0, 4, 12, []⟩).bar ≠ (12 : Nat)
        ↔ (schedStep 1 4 ⟨0, 4, 12, []⟩).beat = 1)
      ∧ ((schedStep 1 4 ⟨0, 4, 12, []⟩).beat = 1
        → (schedStep 1 4 ⟨0, 4, 12, []⟩).bar = 12 % 12 + 1)
      ∧ 1 ≤ (schedStep 1 4 ⟨0, 4, 12, []⟩).bar ∧ (schedStep 1 4 ⟨0, 4, 12, []⟩).bar ≤ 12 :=
  c2_bar_invariants.1 1 4 ⟨0, 4, 12, []⟩ (by decide) (by decide)

end FretViewer
